import Mathlib

/-!
Verification of the transaction-pool ordering engine of `etmp-chain`
(`txpool/queue.go` and the fee accessors of `types/transaction.go`).

The Go code is embedded shallowly:

* `Transaction` carries exactly the fields the queues read
  (`Nonce`, `GasPrice`, `GasTipCap`, `GasFeeCap`, `Gas`, `Type`);
  `*big.Int` fields become `Int`, `uint64` fields become `Nat`.
* The fee accessors `GetGasTipCap`, `GetGasFeeCap`, `EffectiveGasTip`
  and the comparator `cmp` are translated line by line.
* Both queues are backed by Go's `container/heap` over a slice; the
  library's `up`, `down`, `Init`, `Push` and `Pop` are embedded as
  functions on `List` (index `i`'s children are `2*i+1`, `2*i+2`).
-/

namespace Etmp

/-! ### Transaction model (types/transaction.go) -/

/-- Transaction type constants.  `TxType` is a byte in the source;
we keep the numeric codes (`LegacyTx = 0x0`, `StateTx = 0x7f`,
`DynamicFeeTx = 0x02`). -/
def LegacyTx : Nat := 0x0

def StateTx : Nat := 0x7f

def DynamicFeeTx : Nat := 0x02

/-- The fields of `types.Transaction` that the tx-pool queues read.
`Gas` is kept so that two records can differ while having identical
nonce and fee fields (as two transactions from different senders can). -/
structure Transaction where
  Nonce : Nat
  GasPrice : Int
  GasTipCap : Int
  GasFeeCap : Int
  Gas : Nat
  TxType : Nat
  deriving DecidableEq, Repr, Inhabited

/-- `big.Int.Cmp`: -1 if x < y, 0 if equal, +1 if x > y. -/
def bigCmp (x y : Int) : Int :=
  if x < y then -1 else if y < x then 1 else 0

/-- `common.BigMin`. -/
def BigMin (x y : Int) : Int := min x y

namespace Transaction

/-- `GetGasTipCap`: `DynamicFeeTx` returns `GasTipCap`, every other
type falls to the `default` branch returning `GasPrice`. -/
def GetGasTipCap (t : Transaction) : Int :=
  if t.TxType = DynamicFeeTx then t.GasTipCap else t.GasPrice

/-- `GetGasFeeCap`: `DynamicFeeTx` returns `GasFeeCap`, every other
type falls to the `default` branch returning `GasPrice`. -/
def GetGasFeeCap (t : Transaction) : Int :=
  if t.TxType = DynamicFeeTx then t.GasFeeCap else t.GasPrice

/-- `EffectiveGasTip`.  The base fee handed in by the priced queue is a
`uint64` lifted with `SetUint64`, hence never `nil`; `BitLen() == 0`
is `baseFee = 0`. -/
def EffectiveGasTip (t : Transaction) (baseFee : Nat) : Int :=
  if baseFee = 0 then t.GetGasTipCap
  else BigMin t.GetGasTipCap (t.GetGasFeeCap - (baseFee : Int))

end Transaction

/-- `cmp(a, b, baseFee)` from `txpool/queue.go`: effective tips first
when the base fee is positive, then fee caps, then tip caps. -/
def cmp (a b : Transaction) (baseFee : Nat) : Int :=
  if 0 < baseFee then
    let c := bigCmp (a.EffectiveGasTip baseFee) (b.EffectiveGasTip baseFee)
    if c ≠ 0 then c
    else
      let c2 := bigCmp a.GetGasFeeCap b.GetGasFeeCap
      if c2 ≠ 0 then c2 else bigCmp a.GetGasTipCap b.GetGasTipCap
  else
    let c2 := bigCmp a.GetGasFeeCap b.GetGasFeeCap
    if c2 ≠ 0 then c2 else bigCmp a.GetGasTipCap b.GetGasTipCap

/-- `maxPriceQueue.Less`: `cmp = 1` means `i` sorts first, `cmp = -1`
means it does not, and on an economic tie the lower nonce sorts first. -/
def mpLess (baseFee : Nat) (a b : Transaction) : Bool :=
  if cmp a b baseFee = -1 then false
  else if cmp a b baseFee = 1 then true
  else a.Nonce < b.Nonce

/-- `minNonceQueue.Less`: nonce ascending; on equal nonces the higher
gas price sorts first. -/
def mnLess (a b : Transaction) : Bool :=
  if a.Nonce = b.Nonce then b.GasPrice < a.GasPrice
  else a.Nonce < b.Nonce

/-! ### Go's container/heap over a slice

The two queues store their transactions in a Go slice that the
`container/heap` package manipulates through `Len`, `Less`, `Swap`,
`Push`, `Pop`.  We embed the slice as a `List α` and the library's
`up`, `down`, `Init`, `Push`, `Pop` as functions parameterized by the
`Less` method (`less : α → α → Bool`).  All indices the library
touches are in range, so out-of-range `getD`/`set` never fire in a
guarded call. -/

section GoHeap

variable {α : Type} [Inhabited α]

/-- Read the slice at index `i` (`h[i]` in Go; every access in the
heap library is guarded to be in range). -/
def gi (l : List α) (i : Nat) : α := l.getD i default

/-- `Swap(i, j)` on the backing slice. -/
def swapL (l : List α) (i j : Nat) : List α :=
  (l.set i (gi l j)).set j (gi l i)

variable (less : α → α → Bool)

/-- The child of `i` that `down` compares against the parent:
`j := j1; if j2 := j1 + 1; j2 < n && h.Less(j2, j1) { j = j2 }`. -/
def pickChild (l : List α) (i n : Nat) : Nat :=
  if 2*i+2 < n ∧ less (gi l (2*i+2)) (gi l (2*i+1)) = true then 2*i+2 else 2*i+1

theorem pickChild_lt {l : List α} {i n : Nat} (h : 2*i+1 < n) :
    pickChild less l i n < n := by
  unfold pickChild
  split <;> omega

theorem lt_pickChild (l : List α) (i n : Nat) : i < pickChild less l i n := by
  unfold pickChild
  split <;> omega

/-- `down(h, i0, n)` from container/heap: sift the element at `i` down
until both children compare no smaller. -/
def down (l : List α) (i n : Nat) : List α :=
  if h : 2*i+1 < n then
    if less (gi l (pickChild less l i n)) (gi l i) = true then
      down (swapL l i (pickChild less l i n)) (pickChild less l i n) n
    else l
  else l
termination_by n - i
decreasing_by
  have h1 := pickChild_lt less (l := l) (i := i) (n := n) h
  have h2 := lt_pickChild less l i n
  omega

/-- `up(h, j)` from container/heap: sift the element at `j` up while
it compares smaller than its parent.  In Go `i := (j - 1) / 2` equals
`j` exactly when `j = 0` (integer division truncates toward zero), and
`Nat` division agrees there. -/
def up (l : List α) (j : Nat) : List α :=
  if (j-1)/2 ≠ j ∧ less (gi l j) (gi l ((j-1)/2)) = true then
    up (swapL l ((j-1)/2) j) ((j-1)/2)
  else l
termination_by j
decreasing_by omega

/-- The loop of `Init(h)`: `for i := n/2 - 1; i >= 0; i-- { down(h, i, n) }`.
`heapifyAux l n (k+1)` performs `down` at `k, k-1, …, 0`. -/
def heapifyAux (n : Nat) : List α → Nat → List α
  | l, 0 => l
  | l, k+1 => heapifyAux n (down less l k n) k

/-- `heap.Init`. -/
def heapInit (l : List α) : List α :=
  heapifyAux less l.length l (l.length / 2)

/-- `heap.Push` when the pushed value is a record of the expected
kind: the slice `Push` appends, then `up` runs at the last index. -/
def heapPush (l : List α) (x : α) : List α :=
  up less (l ++ [x]) l.length

/-- `heap.Pop` on a non-empty slice: swap the root with the last
element, sift the new root down over the first `n-1` positions, then
the slice `Pop` removes and returns the last element. -/
def popTop (l : List α) : α × List α :=
  let n := l.length - 1
  let l2 := down less (swapL l 0 n) 0 n
  (gi l2 n, l2.take n)

/-- Popping every element (`pop()` until the queue reports empty). -/
def drain (l : List α) : List α :=
  if h : l.length = 0 then []
  else (popTop less l).1 :: drain (popTop less l).2
termination_by l.length
decreasing_by
  simp only [popTop, List.length_take]
  omega

/-- A value handed to the slice `Push(x interface{})` method: either a
`*types.Transaction` or some other value, for which the type assertion
fails. -/
inductive GoVal (α : Type) where
  | tx (t : α) : GoVal α
  | other : GoVal α

/-- The slice `Push` of both `minNonceQueue` and `maxPriceQueue`:
append on a successful type assertion, plain `return` otherwise. -/
def slicePush (l : List α) (v : GoVal α) : List α :=
  match v with
  | GoVal.tx t => l ++ [t]
  | GoVal.other => l

/-- `heap.Push(h, x)` in full: the slice `Push` runs first, then `up`
at index `h.Len()-1` of the resulting slice. -/
def heapPushVal (l : List α) (v : GoVal α) : List α :=
  up less (slicePush l v) ((slicePush l v).length - 1)

end GoHeap

/-! ### Correctness of the heap library operations

The standard binary-heap invariant over the array indexing
(`parent j = (j-1)/2`), the subtree relation `Desc`, and the
specifications of `down`, `up`, `heapInit` and `popTop`.  Everything
is generic in a comparator `less` that is asymmetric and whose
complement is transitive (both `Less` methods of the pool are, being
lexicographic). -/

section GoHeapTheory

variable {α : Type} [Inhabited α]

theorem gi_set_self {l : List α} {i : Nat} (h : i < l.length) (x : α) :
    gi (l.set i x) i = x := by
  simp [gi, List.getD_eq_getElem, h]

theorem gi_set_ne {l : List α} {i v : Nat} (h : v ≠ i) (x : α) :
    gi (l.set i x) v = gi l v := by
  simp [gi, List.getD, List.getElem?_set_ne (by omega : i ≠ v)]

theorem length_swapL (l : List α) (i j : Nat) :
    (swapL l i j).length = l.length := by
  simp [swapL]

theorem gi_swapL_snd {l : List α} {i j : Nat} (hj : j < l.length) :
    gi (swapL l i j) j = gi l i :=
  gi_set_self (by simpa using hj) (gi l i)

theorem gi_swapL_fst {l : List α} {i j : Nat} (hi : i < l.length)
    (hj : j < l.length) : gi (swapL l i j) i = gi l j := by
  by_cases hij : i = j
  · subst hij
    exact gi_swapL_snd hj
  · unfold swapL
    rw [gi_set_ne hij, gi_set_self hi]

theorem gi_swapL_other {l : List α} {i j v : Nat} (hvi : v ≠ i) (hvj : v ≠ j) :
    gi (swapL l i j) v = gi l v := by
  unfold swapL
  rw [gi_set_ne hvj, gi_set_ne hvi]

theorem count_set_add [DecidableEq α] (l : List α) (i : Nat) (b x : α)
    (h : i < l.length) :
    (l.set i b).count x + (if gi l i = x then 1 else 0) =
      l.count x + (if b = x then 1 else 0) := by
  induction l generalizing i with
  | nil => simp at h
  | cons a t ih =>
    cases i with
    | zero =>
      simp [gi, List.count_cons, beq_iff_eq]
      split_ifs <;> omega
    | succ k =>
      have hk : k < t.length := by simpa using h
      have := ih k hk
      simp only [List.set_cons_succ, List.count_cons, gi,
        List.getD_cons_succ] at *
      split_ifs at * <;> omega

theorem swapL_perm [DecidableEq α] (l : List α) (i j : Nat)
    (hi : i < l.length) (hj : j < l.length) : List.Perm (swapL l i j) l := by
  rw [List.perm_iff_count]
  intro x
  have h1 := count_set_add l i (gi l j) x hi
  have h2 := count_set_add (l.set i (gi l j)) j (gi l i) x (by simpa using hj)
  have hgj : gi (l.set i (gi l j)) j = gi l j := by
    by_cases hij : j = i
    · subst hij
      simp [gi, List.getD_eq_getElem, hj]
    · exact gi_set_ne hij _
  rw [hgj] at h2
  unfold swapL
  split_ifs at * <;> omega

/-- Array index of the parent node, `(j-1)/2` (for `j = 0` Go's
truncating division also yields `0`). -/
def parent (j : Nat) : Nat := (j-1)/2

/-- `Desc i j`: index `j` lies in the subtree rooted at index `i`. -/
inductive Desc : Nat → Nat → Prop where
  | refl (i : Nat) : Desc i i
  | left {i k : Nat} : Desc (2*i+1) k → Desc i k
  | right {i k : Nat} : Desc (2*i+2) k → Desc i k

theorem Desc.le {i j : Nat} (h : Desc i j) : i ≤ j := by
  induction h <;> omega

theorem Desc.trans {i j k : Nat} (h1 : Desc i j) (h2 : Desc j k) :
    Desc i k := by
  induction h1 with
  | refl => exact h2
  | left _ ih => exact Desc.left (ih h2)
  | right _ ih => exact Desc.right (ih h2)

theorem Desc.child_left (i : Nat) : Desc i (2*i+1) :=
  Desc.left (Desc.refl _)

theorem Desc.child_right (i : Nat) : Desc i (2*i+2) :=
  Desc.right (Desc.refl _)

theorem parent_child_left (i : Nat) : parent (2*i+1) = i := by
  unfold parent
  omega

theorem parent_child_right (i : Nat) : parent (2*i+2) = i := by
  unfold parent
  omega

theorem parent_lt {v : Nat} (hv : 0 < v) : parent v < v := by
  unfold parent
  omega

theorem child_of_parent {v : Nat} (hv : 0 < v) :
    v = 2 * parent v + 1 ∨ v = 2 * parent v + 2 := by
  unfold parent
  omega

theorem Desc.parent_mem {i j : Nat} (h : Desc i j) (hne : j ≠ i) :
    Desc i (parent j) := by
  induction h with
  | refl => exact absurd rfl hne
  | @left i k h ih =>
    by_cases hk : k = 2*i+1
    · subst hk
      rw [parent_child_left]
      exact Desc.refl i
    · exact Desc.left (ih hk)
  | @right i k h ih =>
    by_cases hk : k = 2*i+2
    · subst hk
      rw [parent_child_right]
      exact Desc.refl i
    · exact Desc.right (ih hk)

theorem Desc.of_parent {i v : Nat} (h : Desc i (parent v)) (hv : 0 < v) :
    Desc i v := by
  rcases child_of_parent hv with hc | hc
  · have hcl := Desc.child_left (parent v)
    rw [← hc] at hcl
    exact h.trans hcl
  · have hcr := Desc.child_right (parent v)
    rw [← hc] at hcr
    exact h.trans hcr

theorem Desc.zero (v : Nat) : Desc 0 v := by
  induction v using Nat.strong_induction_on with
  | _ v ih =>
    rcases Nat.eq_zero_or_pos v with hv | hv
    · subst hv
      exact Desc.refl 0
    · exact (ih (parent v) (parent_lt hv)).of_parent hv

theorem desc_laminar {k : Nat} : ∀ {a b : Nat}, Desc a k → Desc b k →
    a ≤ b → Desc a b := by
  induction k using Nat.strong_induction_on with
  | _ k ih =>
    intro a b ha hb hab
    by_cases hbk : b = k
    · subst hbk
      exact ha
    · by_cases hak : a = k
      · subst hak
        have := hb.le
        have : a = b := by omega
        subst this
        exact Desc.refl a
      · have hk : 0 < k := by
          rcases Nat.eq_zero_or_pos k with h0 | h0
          · subst h0
            have := ha.le
            omega
          · exact h0
        exact ih (parent k) (parent_lt hk) (ha.parent_mem (Ne.symm hak))
          (hb.parent_mem (Ne.symm hbk)) hab

/-- The binary-heap invariant on the first `n` positions: no element
compares `less` than its parent. -/
def HeapWF (less : α → α → Bool) (l : List α) (n : Nat) : Prop :=
  ∀ v, 0 < v → v < n → less (gi l v) (gi l (parent v)) = false

theorem irrefl_of_asymm {less : α → α → Bool}
    (hA : ∀ a b : α, less a b = true → less b a = false) (a : α) :
    less a a = false := by
  by_cases h : less a a = true
  · exact hA a a h
  · simpa using h

/-- Within a subtree whose internal edges all satisfy the heap
condition, every member is no smaller than the subtree root. -/
theorem subtree_min {less : α → α → Bool}
    (hA : ∀ a b : α, less a b = true → less b a = false)
    (hT : ∀ a b c : α, less b a = false → less c b = false →
      less c a = false)
    (l : List α) (n j : Nat)
    (hsub : ∀ v, v < n → Desc j v → v ≠ j →
      less (gi l v) (gi l (parent v)) = false) :
    ∀ v, v < n → Desc j v → less (gi l v) (gi l j) = false := by
  intro v
  induction v using Nat.strong_induction_on with
  | _ v ih =>
    intro hvn hdv
    rcases eq_or_ne v j with rfl | hne
    · exact irrefl_of_asymm hA _
    · have hv : 0 < v := by
        have := hdv.le
        omega
      have hp := ih (parent v) (parent_lt hv) (by
        have := parent_lt hv
        omega) (hdv.parent_mem hne)
      exact hT _ _ _ hp (hsub v hvn hdv hne)

theorem less_trans {less : α → α → Bool}
    (hA : ∀ a b : α, less a b = true → less b a = false)
    (hT : ∀ a b c : α, less b a = false → less c b = false →
      less c a = false)
    {a b c : α} (h1 : less a b = true) (h2 : less b c = true) :
    less a c = true := by
  by_cases hac : less a c = true
  · exact hac
  · have hac' : less a c = false := by simpa using hac
    have := hT b c a (hA b c h2) hac'
    rw [this] at h1
    cases h1

theorem not_desc_left_right (i : Nat) : ¬ Desc (2*i+1) (2*i+2) := by
  intro h
  have hp := h.parent_mem (by omega)
  rw [parent_child_right] at hp
  have := hp.le
  omega

theorem not_desc_right_left (i : Nat) : ¬ Desc (2*i+2) (2*i+1) := by
  intro h
  have := h.le
  omega

end GoHeapTheory

section DownSpec

variable {α : Type} [Inhabited α] [DecidableEq α]

set_option maxHeartbeats 2000000 in
theorem down_spec {less : α → α → Bool}
    (hA : ∀ a b : α, less a b = true → less b a = false)
    (hT : ∀ a b c : α, less b a = false → less c b = false →
      less c a = false)
    (l : List α) (i n : Nat) :
    n ≤ l.length →
    (∀ v, v < n → Desc i v → v ≠ i → parent v ≠ i →
      less (gi l v) (gi l (parent v)) = false) →
    ((∀ v, v < n → Desc i v → v ≠ i →
        less (gi (down less l i n) v) (gi (down less l i n) (parent v)) = false)
     ∧ (∀ v, ¬ Desc i v → gi (down less l i n) v = gi l v)
     ∧ (∀ v, n ≤ v → gi (down less l i n) v = gi l v)
     ∧ (∀ v, v < n → Desc i v →
         ∃ u, u < n ∧ Desc i u ∧ gi (down less l i n) v = gi l u)
     ∧ (down less l i n).length = l.length
     ∧ List.Perm (down less l i n) l) := by
  induction l, i, n using down.induct less with
  | case1 l i n hn hless ih =>
    intro hlen hpre
    have hjn : pickChild less l i n < n := pickChild_lt less hn
    have hij : i < pickChild less l i n := lt_pickChild less l i n
    have hjl : pickChild less l i n < l.length := by omega
    have hil : i < l.length := by omega
    have hdij : Desc i (pickChild less l i n) := by
      unfold pickChild
      split
      · exact Desc.child_right i
      · exact Desc.child_left i
    have hpj : parent (pickChild less l i n) = i := by
      unfold pickChild
      split
      · exact parent_child_right i
      · exact parent_child_left i
    have hdown : down less l i n =
        down less (swapL l i (pickChild less l i n)) (pickChild less l i n) n := by
      rw [down, dif_pos hn, if_pos hless]
    set j := pickChild less l i n with hj
    set l2 := swapL l i j with hl2
    have hlen2 : l2.length = l.length := length_swapL l i j
    have hgi2 : gi l2 i = gi l j := gi_swapL_fst hil hjl
    have hgj2 : gi l2 j = gi l i := gi_swapL_snd hjl
    have hother : ∀ v, v ≠ i → v ≠ j → gi l2 v = gi l v :=
      fun v hvi hvj => gi_swapL_other hvi hvj
    -- edges strictly inside the old subtree of j are untouched heap edges
    have hsubj : ∀ w, w < n → Desc j w → w ≠ j →
        less (gi l w) (gi l (parent w)) = false := by
      intro w hwn hdw hwj
      have hjw : j < w := by
        have := hdw.le
        omega
      have hpw : Desc j (parent w) := hdw.parent_mem hwj
      have hpwj : j ≤ parent w := hpw.le
      exact hpre w hwn (hdij.trans hdw) (by omega) (by omega)
    -- precondition of the recursive call
    have hpre2 : ∀ v, v < n → Desc j v → v ≠ j → parent v ≠ j →
        less (gi l2 v) (gi l2 (parent v)) = false := by
      intro v hvn hdv hvj hpv
      have hjv : j < v := by
        have := hdv.le
        omega
      have hpdv : Desc j (parent v) := hdv.parent_mem hvj
      have hpvj : j < parent v := by
        have := hpdv.le
        omega
      rw [hother v (by omega) hvj, hother (parent v) (by omega) hpv]
      exact hsubj v hvn hdv hvj
    obtain ⟨p1, p2, p3, p4, p5, p6⟩ := ih (by omega) hpre2
    rw [hdown]
    have hD2 : ∀ v, ¬ Desc j v → gi (down less l2 j n) v = gi l2 v := p2
    have hnotdji : ¬ Desc j i := fun h => by
      have := h.le
      omega
    refine ⟨?_, ?_, ?_, ?_, ?_, ?_⟩
    · -- post 1: the subtree at i satisfies the heap property
      intro v hvn hdv hvi
      by_cases hdjv : Desc j v
      · by_cases hvj : v = j
        · -- the edge from j up to i
          subst hvj
          rw [hpj]
          have hDi : gi (down less l2 j n) i = gi l j := by
            rw [p2 i hnotdji, hgi2]
          rw [hDi]
          obtain ⟨u, hun, hdu, hval⟩ := p4 j hjn (Desc.refl j)
          rw [hval]
          by_cases huj : u = j
          · subst huj
            rw [hgj2]
            exact hA _ _ hless
          · rw [hother u (by
              have := hdu.le
              omega) huj]
            exact subtree_min hA hT l n j hsubj u hun hdu
        · exact p1 v hvn hdjv hvj
      · -- v lies in the sibling subtree
        have hvj : v ≠ j := fun h => hdjv (h ▸ Desc.refl j)
        by_cases hpvi : parent v = i
        · -- v is the sibling child of i
          have hv0 : 0 < v := by
            have := hdv.le
            omega
          have hchild : v = 2*i+1 ∨ v = 2*i+2 := by
            have := child_of_parent hv0
            omega
          have hDv : gi (down less l2 j n) v = gi l v := by
            rw [p2 v hdjv, hother v hvi hvj]
          have hDi : gi (down less l2 j n) i = gi l j := by
            rw [p2 i hnotdji, hgi2]
          rw [hpvi, hDv, hDi]
          -- the sibling is not less than the picked child
          have hvj' : v ≠ j := hvj
          by_cases hcond : 2*i+2 < n ∧ less (gi l (2*i+2)) (gi l (2*i+1)) = true
          · have hjeq : j = 2*i+2 := by
              rw [hj]
              unfold pickChild
              exact if_pos hcond
            have hv1 : v = 2*i+1 := by omega
            rw [hv1, hjeq]
            exact hA _ _ hcond.2
          · have hjeq : j = 2*i+1 := by
              rw [hj]
              unfold pickChild
              exact if_neg hcond
            have hv2 : v = 2*i+2 := by omega
            have h2n : 2*i+2 < n := by omega
            rw [hv2, hjeq]
            by_cases hc : less (gi l (2*i+2)) (gi l (2*i+1)) = true
            · exact absurd ⟨h2n, hc⟩ hcond
            · simpa using hc
        · -- v is deeper in the sibling subtree: both ends untouched
          have hv0 : 0 < v := by
            have := hdv.le
            omega
          have hpdv : Desc i (parent v) := hdv.parent_mem hvi
          have hpvj : parent v ≠ j := by
            intro h
            apply hdjv
            have hdp : Desc j (parent v) := by
              rw [h]
              exact Desc.refl j
            exact hdp.of_parent hv0
          have hpdjv : ¬ Desc j (parent v) := fun h =>
            hdjv (h.of_parent hv0)
          have hDv : gi (down less l2 j n) v = gi l v := by
            rw [p2 v hdjv, hother v hvi hvj]
          have hDp : gi (down less l2 j n) (parent v) = gi l (parent v) := by
            rw [p2 (parent v) hpdjv, hother (parent v) hpvi hpvj]
          rw [hDv, hDp]
          exact hpre v hvn hdv hvi hpvi
    · -- post 2: outside the subtree of i nothing changed
      intro v hdv
      have hdjv : ¬ Desc j v := fun h => hdv (hdij.trans h)
      have hvi : v ≠ i := fun h => hdv (h ▸ Desc.refl i)
      have hvj : v ≠ j := fun h => hdv (h ▸ hdij)
      rw [p2 v hdjv, hother v hvi hvj]
    · -- post 3: positions at n and beyond are untouched
      intro v hnv
      have hvi : v ≠ i := by omega
      have hvj : v ≠ j := by omega
      rw [p3 v hnv, hother v hvi hvj]
    · -- post 4: subtree values are drawn from the old subtree
      intro v hvn hdv
      by_cases hdjv : Desc j v
      · obtain ⟨u, hun, hdu, hval⟩ := p4 v hvn hdjv
        by_cases huj : u = j
        · subst huj
          refine ⟨i, by omega, Desc.refl i, ?_⟩
          rw [hval, hgj2]
        · refine ⟨u, hun, hdij.trans hdu, ?_⟩
          rw [hval, hother u (by
            have := hdu.le
            omega) huj]
      · by_cases hvi : v = i
        · subst hvi
          refine ⟨j, hjn, hdij, ?_⟩
          rw [p2 v hdjv, hgi2]
        · refine ⟨v, hvn, hdv, ?_⟩
          have hvj : v ≠ j := fun h => hdjv (h ▸ Desc.refl j)
          rw [p2 v hdjv, hother v hvi hvj]
    · rw [p5, hlen2]
    · exact p6.trans (swapL_perm l i j hil hjl)
  | case2 l i n hn hnless =>
    intro hlen hpre
    have hstop : down less l i n = l := by
      rw [down, dif_pos hn, if_neg hnless]
    rw [hstop]
    refine ⟨?_, fun v _ => rfl, fun v _ => rfl,
      fun v hvn hdv => ⟨v, hvn, hdv, rfl⟩, rfl, List.Perm.refl l⟩
    intro v hvn hdv hvi
    by_cases hpvi : parent v = i
    · have hv0 : 0 < v := by
        have := hdv.le
        omega
      have hchild : v = 2*i+1 ∨ v = 2*i+2 := by
        have := child_of_parent hv0
        omega
      rw [hpvi]
      have hnless' : less (gi l (pickChild less l i n)) (gi l i) = false := by
        simpa using hnless
      revert hnless'
      unfold pickChild
      split
      · rename_i hcond
        intro hnless'
        rcases hchild with hv1 | hv2
        · -- sibling 2*i+1 of the picked child 2*i+2
          rw [hv1]
          by_cases hcontra : less (gi l (2*i+1)) (gi l i) = true
          · have := less_trans hA hT hcond.2 hcontra
            rw [this] at hnless'
            cases hnless'
          · simpa using hcontra
        · rw [hv2]
          exact hnless'
      · rename_i hcond
        intro hnless'
        rcases hchild with hv1 | hv2
        · rw [hv1]
          exact hnless'
        · -- sibling 2*i+2 of the picked child 2*i+1
          rw [hv2]
          have h2n : 2*i+2 < n := by omega
          have hsib : less (gi l (2*i+2)) (gi l (2*i+1)) = false := by
            by_cases hc : less (gi l (2*i+2)) (gi l (2*i+1)) = true
            · exact absurd ⟨h2n, hc⟩ hcond
            · simpa using hc
          exact hT _ _ _ hnless' hsib
    · exact hpre v hvn hdv hvi hpvi
  | case3 l i n hn =>
    intro hlen hpre
    have hstop : down less l i n = l := by
      rw [down, dif_neg hn]
    rw [hstop]
    refine ⟨?_, fun v _ => rfl, fun v _ => rfl,
      fun v hvn hdv => ⟨v, hvn, hdv, rfl⟩, rfl, List.Perm.refl l⟩
    intro v hvn hdv hvi
    by_cases hpvi : parent v = i
    · have hv0 : 0 < v := by
        have := hdv.le
        omega
      have : v = 2*i+1 ∨ v = 2*i+2 := by
        have := child_of_parent hv0
        omega
      omega
    · exact hpre v hvn hdv hvi hpvi

end DownSpec


/-! ### The comparator written from the spec's words (§4.2), for the
refinement claim C1. -/

/-- Modelled from the spec (§4.2): a legacy (non-dynamic-fee) record
uses its gas price as tip cap. -/
def specTipCap (t : Transaction) : Int :=
  if t.TxType = DynamicFeeTx then t.GasTipCap else t.GasPrice

/-- Modelled from the spec (§4.2): a legacy (non-dynamic-fee) record
uses its gas price as fee cap. -/
def specFeeCap (t : Transaction) : Int :=
  if t.TxType = DynamicFeeTx then t.GasFeeCap else t.GasPrice

/-- Modelled from the spec (§4.2 step 1):
`effectiveTip(x) = min(tipCap(x), feeCap(x) − baseFee)`. -/
def specEffectiveTip (baseFee : Nat) (t : Transaction) : Int :=
  min (specTipCap t) (specFeeCap t - (baseFee : Int))

/-- The three price tiers of §4.2, written from the spec's words:
1. if base fee > 0 and the effective tips differ, the larger wins;
2. else compare fee caps, the larger wins;
3. else compare tip caps, the larger wins.
Result `1` means `a` wins, `-1` means `b` wins, `0` is a full tie. -/
def cmpSpec (baseFee : Nat) (a b : Transaction) : Int :=
  if 0 < baseFee ∧ specEffectiveTip baseFee a ≠ specEffectiveTip baseFee b then
    if specEffectiveTip baseFee b < specEffectiveTip baseFee a then 1 else -1
  else if specFeeCap a ≠ specFeeCap b then
    if specFeeCap b < specFeeCap a then 1 else -1
  else if specTipCap a ≠ specTipCap b then
    if specTipCap b < specTipCap a then 1 else -1
  else 0

section UpSpec

variable {α : Type} [Inhabited α] [DecidableEq α]

set_option maxHeartbeats 1000000 in
theorem up_spec {less : α → α → Bool}
    (hA : ∀ a b : α, less a b = true → less b a = false)
    (hT : ∀ a b c : α, less b a = false → less c b = false →
      less c a = false)
    (l : List α) (j : Nat) :
    j < l.length →
    (∀ v, 0 < v → v < l.length → v ≠ j →
      less (gi l v) (gi l (parent v)) = false) →
    (0 < j → ∀ c, c < l.length → parent c = j →
      less (gi l c) (gi l (parent j)) = false) →
    (HeapWF less (up less l j) (up less l j).length
     ∧ (up less l j).length = l.length
     ∧ List.Perm (up less l j) l) := by
  induction l, j using up.induct less with
  | case1 l j hcond ih =>
    intro hjl hInv1 hInv2
    obtain ⟨hne, hless⟩ := hcond
    have hj0 : 0 < j := by
      rcases Nat.eq_zero_or_pos j with h0 | h0
      · subst h0
        simp at hne
      · exact h0
    have hpj : parent j = (j-1)/2 := rfl
    have hpjlt : (j-1)/2 < j := by omega
    have hpl : (j-1)/2 < l.length := by omega
    have hup : up less l j = up less (swapL l ((j-1)/2) j) ((j-1)/2) := by
      rw [up, if_pos ⟨hne, hless⟩]
    set p := (j-1)/2 with hpdef
    set l2 := swapL l p j with hl2
    have hlen2 : l2.length = l.length := length_swapL l p j
    have hgp2 : gi l2 p = gi l j := gi_swapL_fst hpl hjl
    have hgj2 : gi l2 j = gi l p := gi_swapL_snd hjl
    have hother : ∀ v, v ≠ p → v ≠ j → gi l2 v = gi l v :=
      fun v hvp hvj => gi_swapL_other hvp hvj
    have hInv1' : ∀ v, 0 < v → v < l2.length → v ≠ p →
        less (gi l2 v) (gi l2 (parent v)) = false := by
      intro v hv0 hvl hvp
      rw [hlen2] at hvl
      by_cases hvj : v = j
      · subst hvj
        rw [hgj2]
        have hparent : parent v = p := hpj
        rw [hparent, hgp2]
        exact hA _ _ hless
      · by_cases hpvp : parent v = p
        · -- v is the sibling of j under p
          rw [hpvp, hgp2, hother v hvp hvj]
          have hv1 : less (gi l v) (gi l (parent v)) = false :=
            hInv1 v hv0 hvl hvj
          rw [hpvp] at hv1
          by_cases hc : less (gi l v) (gi l j) = true
          · have := less_trans hA hT hc hless
            rw [this] at hv1
            cases hv1
          · simpa using hc
        · by_cases hpvj : parent v = j
          · -- v is a child of j
            rw [hpvj, hgj2, hother v hvp hvj]
            have : gi l p = gi l (parent j) := by
              rw [hpj]
            rw [this]
            exact hInv2 hj0 v hvl hpvj
          · rw [hother v hvp hvj, hother (parent v) hpvp hpvj]
            exact hInv1 v hv0 hvl hvj
    have hInv2' : 0 < p → ∀ c, c < l2.length → parent c = p →
        less (gi l2 c) (gi l2 (parent p)) = false := by
      intro hp0 c hcl hpc
      rw [hlen2] at hcl
      have hppp : parent p < p := parent_lt hp0
      have hppj : parent p ≠ j := by omega
      have hppne : parent p ≠ p := by omega
      rw [hother (parent p) hppne hppj]
      by_cases hcj : c = j
      · subst hcj
        rw [hgj2]
        exact hInv1 p hp0 (by omega) (by omega)
      · have hc0 : 0 < c := by
          rcases Nat.eq_zero_or_pos c with h0 | h0
          · subst h0
            unfold parent at hpc
            omega
          · exact h0
        have hcbig : 2 * p + 1 ≤ c := by
          have := child_of_parent hc0
          omega
        have hcp : c ≠ p := by omega
        rw [hother c hcp hcj]
        have h1 : less (gi l c) (gi l p) = false := by
          have := hInv1 c hc0 hcl hcj
          rw [hpc] at this
          exact this
        have h2 : less (gi l p) (gi l (parent p)) = false :=
          hInv1 p hp0 (by omega) (by omega)
        exact hT _ _ _ h2 h1
    obtain ⟨w1, w2, w3⟩ := ih (by omega) hInv1' hInv2'
    rw [hup]
    exact ⟨w1, by rw [w2, hlen2], w3.trans (swapL_perm l p j hpl hjl)⟩
  | case2 l j hcond =>
    intro hjl hInv1 hInv2
    have hstop : up less l j = l := by
      rw [up, if_neg hcond]
    rw [hstop]
    refine ⟨?_, rfl, List.Perm.refl l⟩
    intro v hv0 hvl
    by_cases hvj : v = j
    · subst hvj
      have : ¬ ((v-1)/2 ≠ v ∧ less (gi l v) (gi l ((v-1)/2)) = true) := hcond
      have hne : (v-1)/2 ≠ v := by omega
      have : ¬ less (gi l v) (gi l ((v-1)/2)) = true := fun hc =>
        this ⟨hne, hc⟩
      have hfalse : less (gi l v) (gi l ((v-1)/2)) = false := by
        simpa using this
      exact hfalse
    · exact hInv1 v hv0 hvl hvj

end UpSpec

section OpsSpec

variable {α : Type} [Inhabited α] [DecidableEq α]

theorem gi_append_lt {l : List α} {x : α} {v : Nat} (h : v < l.length) :
    gi (l ++ [x]) v = gi l v := by
  simp [gi, List.getD, List.getElem?_append_left h]

theorem gi_append_self (l : List α) (x : α) :
    gi (l ++ [x]) l.length = x := by
  simp [gi, List.getD_eq_getElem]

theorem gi_take {l : List α} {n v : Nat} (h : v < n) :
    gi (l.take n) v = gi l v := by
  simp [gi, List.getD, List.getElem?_take, h]

/-- Every element of a heap-ordered prefix is no smaller than the root. -/
theorem root_min {less : α → α → Bool}
    (hA : ∀ a b : α, less a b = true → less b a = false)
    (hT : ∀ a b c : α, less b a = false → less c b = false →
      less c a = false)
    (l : List α) (n : Nat) (hwf : HeapWF less l n) :
    ∀ v, v < n → less (gi l v) (gi l 0) = false := by
  intro v hv
  exact subtree_min hA hT l n 0
    (fun w hwn _ hw0 => hwf w (Nat.pos_of_ne_zero hw0) hwn)
    v hv (Desc.zero v)

/-- Membership form of `root_min` for a fully heap-ordered list. -/
theorem mem_le_root {less : α → α → Bool}
    (hA : ∀ a b : α, less a b = true → less b a = false)
    (hT : ∀ a b c : α, less b a = false → less c b = false →
      less c a = false)
    (l : List α) (hwf : HeapWF less l l.length) :
    ∀ y, y ∈ l → less y (gi l 0) = false := by
  intro y hy
  obtain ⟨i, hlt, hi⟩ := List.mem_iff_getElem.mp hy
  have hgi : gi l i = y := by
    rw [gi, List.getD_eq_getElem _ _ hlt]
    exact hi
  rw [← hgi]
  exact root_min hA hT l l.length hwf i hlt

/-- `heap.Push` of a transaction value preserves the heap invariant
and adds exactly the pushed element. -/
theorem heapPush_spec {less : α → α → Bool}
    (hA : ∀ a b : α, less a b = true → less b a = false)
    (hT : ∀ a b c : α, less b a = false → less c b = false →
      less c a = false)
    (l : List α) (x : α) (hwf : HeapWF less l l.length) :
    HeapWF less (heapPush less l x) (heapPush less l x).length
    ∧ (heapPush less l x).length = l.length + 1
    ∧ List.Perm (heapPush less l x) (l ++ [x]) := by
  unfold heapPush
  have hlen : (l ++ [x]).length = l.length + 1 := by simp
  have hjl : l.length < (l ++ [x]).length := by omega
  have hInv1 : ∀ v, 0 < v → v < (l ++ [x]).length → v ≠ l.length →
      less (gi (l ++ [x]) v) (gi (l ++ [x]) (parent v)) = false := by
    intro v hv0 hvl hvne
    have hvlt : v < l.length := by
      simp only [List.length_append, List.length_singleton] at hvl
      omega
    have hplt : parent v < l.length := by
      have := parent_lt hv0
      omega
    rw [gi_append_lt hvlt, gi_append_lt hplt]
    exact hwf v hv0 hvlt
  have hInv2 : 0 < l.length → ∀ c, c < (l ++ [x]).length →
      parent c = l.length →
      less (gi (l ++ [x]) c) (gi (l ++ [x]) (parent l.length)) = false := by
    intro _ c hcl hpc
    have hc0 : 0 < c := by
      rcases Nat.eq_zero_or_pos c with h0 | h0
      · subst h0
        unfold parent at hpc
        omega
      · exact h0
    have := child_of_parent hc0
    simp only [List.length_append, List.length_singleton] at hcl
    omega
  obtain ⟨w1, w2, w3⟩ := up_spec hA hT (l ++ [x]) l.length hjl hInv1 hInv2
  exact ⟨w1, by rw [w2, hlen], w3⟩

/-- `heap.Pop` on a non-empty heap returns the root; the remainder is
heap-ordered and the heap loses exactly the root. -/
theorem popTop_spec {less : α → α → Bool}
    (hA : ∀ a b : α, less a b = true → less b a = false)
    (hT : ∀ a b c : α, less b a = false → less c b = false →
      less c a = false)
    (l : List α) (hne : l.length ≠ 0) (hwf : HeapWF less l l.length) :
    (popTop less l).1 = gi l 0
    ∧ HeapWF less (popTop less l).2 (popTop less l).2.length
    ∧ (popTop less l).2.length = l.length - 1
    ∧ List.Perm ((popTop less l).1 :: (popTop less l).2) l := by
  set m := l.length - 1 with hm
  have hml : m < l.length := by omega
  have h0l : 0 < l.length := by omega
  set l1 := swapL l 0 m with hl1
  have hlen1 : l1.length = l.length := length_swapL l 0 m
  have hpre : ∀ v, v < m → Desc 0 v → v ≠ 0 → parent v ≠ 0 →
      less (gi l1 v) (gi l1 (parent v)) = false := by
    intro v hvm _ hv0 hpv0
    have hv0' : 0 < v := Nat.pos_of_ne_zero hv0
    have hpv : parent v < v := parent_lt hv0'
    rw [gi_swapL_other (by omega) (by omega),
      gi_swapL_other hpv0 (by omega)]
    exact hwf v hv0' (by omega)
  obtain ⟨p1, p2, p3, p4, p5, p6⟩ :=
    down_spec hA hT l1 0 m (by omega) hpre
  set l2 := down less l1 0 m with hl2
  have hlen2 : l2.length = l.length := by rw [p5, hlen1]
  have hroot : gi l2 m = gi l 0 := by
    rw [p3 m (le_refl m)]
    exact gi_swapL_snd hml
  have hpop1 : (popTop less l).1 = gi l 0 := by
    rw [popTop]
    simpa using hroot
  have hpop2 : (popTop less l).2 = l2.take m := by
    rw [popTop]
  have hwf2 : HeapWF less (l2.take m) (l2.take m).length := by
    have htl : (l2.take m).length = m := by
      rw [List.length_take]
      omega
    rw [htl]
    intro v hv0 hvm
    have hpv : parent v < m := by
      have := parent_lt hv0
      omega
    rw [gi_take hvm, gi_take hpv]
    exact p1 v hvm (Desc.zero v) (by omega)
  have hperm : List.Perm ((popTop less l).1 :: (popTop less l).2) l := by
    rw [hpop1, hpop2]
    have hsplit : l2 = l2.take m ++ l2.drop m := (List.take_append_drop m l2).symm
    have hdrop : l2.drop m = [gi l2 m] := by
      have hmlt : m < l2.length := by omega
      rw [List.drop_eq_getElem_cons hmlt]
      have : l2.drop (m+1) = [] := by
        rw [List.drop_eq_nil_iff]
        omega
      rw [this, gi, List.getD_eq_getElem _ _ hmlt]
    have hp0 : List.Perm (gi l 0 :: l2.take m) (l2.take m ++ [gi l 0]) :=
      (List.perm_append_singleton _ _).symm
    refine hp0.trans ?_
    rw [← hroot, ← hdrop, ← hsplit]
    exact p6.trans (swapL_perm l 0 m (by omega) hml)
  refine ⟨hpop1, by rw [hpop2]; exact hwf2, ?_, hperm⟩
  rw [hpop2, List.length_take]
  omega

end OpsSpec

section InitDrain

variable {α : Type} [Inhabited α] [DecidableEq α]

/-- Invariant of the `Init` loop: after the loop has processed all
indices `≥ k`, every edge whose parent index is `≥ k` satisfies the
heap condition; running the rest of the loop yields a full heap. -/
theorem heapifyAux_spec {less : α → α → Bool}
    (hA : ∀ a b : α, less a b = true → less b a = false)
    (hT : ∀ a b c : α, less b a = false → less c b = false →
      less c a = false)
    (n : Nat) :
    ∀ (k : Nat) (l : List α), n ≤ l.length →
    (∀ v, 0 < v → v < n → k ≤ parent v →
      less (gi l v) (gi l (parent v)) = false) →
    (HeapWF less (heapifyAux less n l k) n
     ∧ (heapifyAux less n l k).length = l.length
     ∧ List.Perm (heapifyAux less n l k) l) := by
  intro k
  induction k with
  | zero =>
    intro l hlen hinv
    exact ⟨fun v hv0 hvn => hinv v hv0 hvn (Nat.zero_le _), rfl,
      List.Perm.refl l⟩
  | succ k ih =>
    intro l hlen hinv
    have hpre : ∀ v, v < n → Desc k v → v ≠ k → parent v ≠ k →
        less (gi l v) (gi l (parent v)) = false := by
      intro v hvn hdv hvk hpvk
      have hv0 : 0 < v := by
        have := hdv.le
        omega
      have hpv : Desc k (parent v) := hdv.parent_mem hvk
      have : k ≤ parent v := hpv.le
      exact hinv v hv0 hvn (by omega)
    obtain ⟨p1, p2, p3, p4, p5, p6⟩ := down_spec hA hT l k n hlen hpre
    have hstep : heapifyAux less n l (k+1) = heapifyAux less n (down less l k n) k := rfl
    rw [hstep]
    have hinv' : ∀ v, 0 < v → v < n → k ≤ parent v →
        less (gi (down less l k n) v) (gi (down less l k n) (parent v)) = false := by
      intro v hv0 hvn hkpv
      by_cases hpvk : parent v = k
      · have hdv : Desc k v := by
          have hd : Desc k (parent v) := by
            rw [hpvk]
            exact Desc.refl k
          exact hd.of_parent hv0
        exact p1 v hvn hdv (by
          have := parent_lt hv0
          omega)
      · by_cases hdv : Desc k v
        · have hvk : v ≠ k := by
            have := parent_lt hv0
            have hk2 : k ≤ parent v := hkpv
            omega
          exact p1 v hvn hdv hvk
        · have hpdv : ¬ Desc k (parent v) := fun h =>
            hdv (h.of_parent hv0)
          rw [p2 v hdv, p2 (parent v) hpdv]
          exact hinv v hv0 hvn (by omega)
    obtain ⟨w1, w2, w3⟩ := ih (down less l k n) (by omega) hinv'
    exact ⟨w1, by rw [w2, p5], w3.trans p6⟩

/-- `heap.Init` establishes the heap invariant and permutes nothing. -/
theorem heapInit_spec {less : α → α → Bool}
    (hA : ∀ a b : α, less a b = true → less b a = false)
    (hT : ∀ a b c : α, less b a = false → less c b = false →
      less c a = false)
    (l : List α) :
    HeapWF less (heapInit less l) (heapInit less l).length
    ∧ (heapInit less l).length = l.length
    ∧ List.Perm (heapInit less l) l := by
  have hinv : ∀ v, 0 < v → v < l.length → l.length / 2 ≤ parent v →
      less (gi l v) (gi l (parent v)) = false := by
    intro v hv0 hvl hpv
    exfalso
    have := child_of_parent hv0
    unfold parent at hpv
    omega
  obtain ⟨w1, w2, w3⟩ :=
    heapifyAux_spec hA hT l.length (l.length / 2) l (le_refl _) hinv
  have hlen : (heapInit less l).length = l.length := by
    unfold heapInit
    exact w2
  refine ⟨?_, hlen, ?_⟩
  · unfold heapInit
    rw [show (heapifyAux less l.length l (l.length / 2)).length = l.length from w2]
    exact w1
  · unfold heapInit
    exact w3

/-- Draining a heap yields a permutation of its contents, sorted so
that no later element compares `less` than an earlier one. -/
theorem drain_spec {less : α → α → Bool}
    (hA : ∀ a b : α, less a b = true → less b a = false)
    (hT : ∀ a b c : α, less b a = false → less c b = false →
      less c a = false) (l : List α) :
    HeapWF less l l.length →
    (List.Perm (drain less l) l
     ∧ List.Pairwise (fun a b => less b a = false) (drain less l)) := by
  induction l using drain.induct less with
  | case1 l hnil =>
    intro _
    have hl : l = [] := List.length_eq_zero.mp hnil
    rw [drain, dif_pos hnil]
    subst hl
    exact ⟨List.Perm.refl [], List.Pairwise.nil⟩
  | case2 l hnil ih =>
    intro hwf
    obtain ⟨q1, q2, q3, q4⟩ := popTop_spec hA hT l hnil hwf
    have hstep : drain less l = (popTop less l).1 :: drain less (popTop less l).2 := by
      rw [drain, dif_neg hnil]
    obtain ⟨d1, d2⟩ := ih (by rw [q3] at q2; rwa [← q3] at q2)
    rw [hstep]
    constructor
    · exact (d1.cons (popTop less l).1).trans q4
    · refine List.Pairwise.cons ?_ d2
      intro y hy
      have hymem : y ∈ (popTop less l).2 := d1.mem_iff.mp hy
      have hyl : y ∈ l := q4.mem_iff.mp (List.mem_cons_of_mem _ hymem)
      rw [q1]
      exact mem_le_root hA hT l hwf y hyl
end InitDrain

/-! ### Order theory of the two `Less` comparators

Both `Less` methods are strict weak orders: each compares a
lexicographic key.  We expose the keys and prove asymmetry and
transitivity of the complement, which is what the heap proofs need. -/

/-- Strict lexicographic order on integer 4-tuples. -/
def lex4Lt (p q : Int × Int × Int × Int) : Prop :=
  p.1 < q.1 ∨ (p.1 = q.1 ∧ (p.2.1 < q.2.1 ∨ (p.2.1 = q.2.1 ∧
    (p.2.2.1 < q.2.2.1 ∨ (p.2.2.1 = q.2.2.1 ∧ p.2.2.2 < q.2.2.2)))))

theorem lex4Lt_asymm {p q : Int × Int × Int × Int} :
    lex4Lt p q → ¬ lex4Lt q p := by
  obtain ⟨p1, p2, p3, p4⟩ := p
  obtain ⟨q1, q2, q3, q4⟩ := q
  unfold lex4Lt
  dsimp only
  omega

theorem lex4Lt_le_trans {p q r : Int × Int × Int × Int} :
    ¬ lex4Lt q p → ¬ lex4Lt r q → ¬ lex4Lt r p := by
  obtain ⟨p1, p2, p3, p4⟩ := p
  obtain ⟨q1, q2, q3, q4⟩ := q
  obtain ⟨r1, r2, r3, r4⟩ := r
  unfold lex4Lt
  dsimp only
  omega

/-- Strict lexicographic order on integer triples. -/
def lex3Lt (p q : Int × Int × Int) : Prop :=
  p.1 < q.1 ∨ (p.1 = q.1 ∧ (p.2.1 < q.2.1 ∨ (p.2.1 = q.2.1 ∧ p.2.2 < q.2.2)))

/-- The economic triple `cmp` compares lexicographically: effective
tip (only consulted when `F > 0`), fee cap, tip cap. -/
def tkey (F : Nat) (a : Transaction) : Int × Int × Int :=
  ((if 0 < F then a.EffectiveGasTip F else 0), a.GetGasFeeCap, a.GetGasTipCap)

theorem cmp_trichotomy (a b : Transaction) (F : Nat) :
    cmp a b F = -1 ∨ cmp a b F = 0 ∨ cmp a b F = 1 := by
  unfold cmp bigCmp
  dsimp only
  split_ifs <;> simp

theorem cmp_eq_neg_one_iff (a b : Transaction) (F : Nat) :
    cmp a b F = -1 ↔ lex3Lt (tkey F a) (tkey F b) := by
  unfold cmp bigCmp tkey lex3Lt
  dsimp only
  split_ifs <;> constructor <;> intro hh <;>
    first | omega | trivial | (simp_all; omega)

theorem cmp_eq_one_iff (a b : Transaction) (F : Nat) :
    cmp a b F = 1 ↔ lex3Lt (tkey F b) (tkey F a) := by
  unfold cmp bigCmp tkey lex3Lt
  dsimp only
  split_ifs <;> constructor <;> intro hh <;>
    first | omega | trivial | (simp_all; omega)

theorem cmp_eq_zero_iff (a b : Transaction) (F : Nat) :
    cmp a b F = 0 ↔ tkey F a = tkey F b := by
  unfold cmp bigCmp tkey
  dsimp only
  split_ifs <;> simp only [Prod.mk.injEq] <;> constructor <;> intro hh <;>
    first | omega | trivial | (simp_all; omega)

/-- The sort key realized by `maxPriceQueue.Less` under base fee `F`:
effective tip (only when `F > 0`), fee cap and tip cap descending,
then nonce ascending. -/
def mpKey (F : Nat) (a : Transaction) : Int × Int × Int × Int :=
  (-(tkey F a).1, -(tkey F a).2.1, -(tkey F a).2.2, (a.Nonce : Int))

/-- The sort key realized by `minNonceQueue.Less`: nonce ascending,
then gas price descending. -/
def mnKey (a : Transaction) : Int × Int × Int × Int :=
  ((a.Nonce : Int), -a.GasPrice, 0, 0)

theorem lex4_neg_bridge (x1 x2 x3 y1 y2 y3 na nb : Int) :
    lex4Lt (-x1, -x2, -x3, na) (-y1, -y2, -y3, nb) ↔
      (lex3Lt (y1, y2, y3) (x1, x2, x3) ∨
        ((x1, x2, x3) = ((y1, y2, y3) : Int × Int × Int) ∧ na < nb)) := by
  unfold lex4Lt lex3Lt
  simp only [Prod.mk.injEq]
  omega

theorem mpLess_iff (F : Nat) (a b : Transaction) :
    mpLess F a b = true ↔ lex4Lt (mpKey F a) (mpKey F b) := by
  have hbridge : lex4Lt (mpKey F a) (mpKey F b) ↔
      (lex3Lt (tkey F b) (tkey F a) ∨ (tkey F a = tkey F b ∧
        (a.Nonce : Int) < (b.Nonce : Int))) := by
    have ha : tkey F a = ((tkey F a).1, (tkey F a).2.1, (tkey F a).2.2) := rfl
    have hbb : tkey F b = ((tkey F b).1, (tkey F b).2.1, (tkey F b).2.2) := rfl
    rw [mpKey, mpKey, lex4_neg_bridge, ← ha, ← hbb]
  rw [hbridge]
  rcases cmp_trichotomy a b F with h | h | h <;>
    simp only [mpLess, h] <;> norm_num
  · constructor
    · intro hc
      have := (cmp_eq_one_iff a b F).mpr hc
      omega
    · intro heq
      have := (cmp_eq_zero_iff a b F).mpr heq
      omega
  · have heq := (cmp_eq_zero_iff a b F).mp h
    constructor
    · intro hn
      right
      exact ⟨heq, by exact_mod_cast hn⟩
    · rintro (hlt | ⟨_, hn⟩)
      · have := (cmp_eq_one_iff a b F).mpr hlt
        omega
      · exact hn
  · left
    exact (cmp_eq_one_iff a b F).mp h

theorem mnLess_iff (a b : Transaction) :
    mnLess a b = true ↔ lex4Lt (mnKey a) (mnKey b) := by
  unfold mnLess mnKey lex4Lt
  dsimp only
  split_ifs <;> simp_all <;> omega

theorem mpLess_asymm {F : Nat} {a b : Transaction} :
    mpLess F a b = true → mpLess F b a = false := by
  intro h
  rw [mpLess_iff] at h
  rw [← Bool.not_eq_true, mpLess_iff]
  exact lex4Lt_asymm h

theorem mpLess_le_trans {F : Nat} {a b c : Transaction} :
    mpLess F b a = false → mpLess F c b = false → mpLess F c a = false := by
  intro h1 h2
  rw [← Bool.not_eq_true, mpLess_iff] at h1 h2 ⊢
  exact lex4Lt_le_trans h1 h2

theorem mnLess_asymm {a b : Transaction} :
    mnLess a b = true → mnLess b a = false := by
  intro h
  rw [mnLess_iff] at h
  rw [← Bool.not_eq_true, mnLess_iff]
  exact lex4Lt_asymm h

theorem mnLess_le_trans {a b c : Transaction} :
    mnLess b a = false → mnLess c b = false → mnLess c a = false := by
  intro h1 h2
  rw [← Bool.not_eq_true, mnLess_iff] at h1 h2 ⊢
  exact lex4Lt_le_trans h1 h2

/-! ### Claim C1: the comparator implements the §4.2 tiers -/

theorem specTipCap_eq (t : Transaction) : specTipCap t = t.GetGasTipCap := rfl

theorem specFeeCap_eq (t : Transaction) : specFeeCap t = t.GetGasFeeCap := rfl

theorem specEffectiveTip_of_pos (F : Nat) (t : Transaction) (hF : 0 < F) :
    specEffectiveTip F t = t.EffectiveGasTip F := by
  unfold specEffectiveTip Transaction.EffectiveGasTip BigMin
  rw [if_neg (by omega)]
  rfl

/-- `cmp` with its `let`-bound comparisons flattened (definitional). -/
theorem cmp_def (a b : Transaction) (F : Nat) :
    cmp a b F =
      (if 0 < F then
        (if bigCmp (a.EffectiveGasTip F) (b.EffectiveGasTip F) ≠ 0 then
          bigCmp (a.EffectiveGasTip F) (b.EffectiveGasTip F)
        else if bigCmp a.GetGasFeeCap b.GetGasFeeCap ≠ 0 then
          bigCmp a.GetGasFeeCap b.GetGasFeeCap
        else bigCmp a.GetGasTipCap b.GetGasTipCap)
      else
        (if bigCmp a.GetGasFeeCap b.GetGasFeeCap ≠ 0 then
          bigCmp a.GetGasFeeCap b.GetGasFeeCap
        else bigCmp a.GetGasTipCap b.GetGasTipCap)) := rfl

set_option maxHeartbeats 1000000 in
theorem cmp_shape3 (e1 e2 x y u v : Int) :
    (if bigCmp e1 e2 ≠ 0 then bigCmp e1 e2
     else if bigCmp x y ≠ 0 then bigCmp x y else bigCmp u v) =
    (if e1 ≠ e2 then (if e2 < e1 then 1 else -1)
     else if x ≠ y then (if y < x then 1 else -1)
     else if u ≠ v then (if v < u then 1 else -1)
     else 0) := by
  simp only [bigCmp]
  split_ifs <;> omega

theorem cmp_shape2 (x y u v : Int) :
    (if bigCmp x y ≠ 0 then bigCmp x y else bigCmp u v) =
    (if x ≠ y then (if y < x then 1 else -1)
     else if u ≠ v then (if v < u then 1 else -1)
     else 0) := by
  simp only [bigCmp]
  split_ifs <;> omega

/-- C1: the economic comparator `cmp(a, b, baseFee)` implements the
three price tiers of §4.2: with a positive base fee it first compares
effective tips `min(tipCap, feeCap − baseFee)` and the larger wins;
with base fee zero, or on an effective-tip tie, the larger fee cap
wins; then the larger tip cap wins; and a legacy (non-dynamic-fee)
record contributes its gas price as both tip cap and fee cap
(`specTipCap`/`specFeeCap` spell this out and `cmpSpec` is the spec's
tier order verbatim). -/
theorem C1_cmp_implements_spec_tiers (a b : Transaction) (F : Nat) :
    cmp a b F = cmpSpec F a b := by
  by_cases hF : 0 < F
  · rw [cmp_def, if_pos hF]
    unfold cmpSpec
    rw [specEffectiveTip_of_pos F a hF, specEffectiveTip_of_pos F b hF]
    simp only [eq_true hF, true_and]
    exact cmp_shape3 (a.EffectiveGasTip F) (b.EffectiveGasTip F)
      a.GetGasFeeCap b.GetGasFeeCap a.GetGasTipCap b.GetGasTipCap
  · rw [cmp_def, if_neg hF]
    unfold cmpSpec
    simp only [eq_false hF, false_and, if_false]
    exact cmp_shape2 a.GetGasFeeCap b.GetGasFeeCap
      a.GetGasTipCap b.GetGasTipCap

/-- C10: every transaction whose type is not `DynamicFeeTx` — the
`StateTx` type (0x7f) as much as `LegacyTx` (0x0), and any other
non-dynamic byte — takes the `default` branch of both fee accessors,
so its tip cap and fee cap are both its gas price, which is exactly
the legacy view the comparator `cmp` consumes. -/
theorem C10_non_dynamic_accessors_are_gas_price (t : Transaction)
    (h : t.TxType ≠ DynamicFeeTx) :
    t.GetGasTipCap = t.GasPrice ∧ t.GetGasFeeCap = t.GasPrice := by
  unfold Transaction.GetGasTipCap Transaction.GetGasFeeCap
  rw [if_neg h, if_neg h]
  exact ⟨rfl, rfl⟩

/-- Witness for C10 at a concrete `StateTx` record. -/
theorem C10_non_dynamic_accessors_are_gas_price_witness :
    (Transaction.mk 4 77 5 9 21000 StateTx).GetGasTipCap = 77 ∧
      (Transaction.mk 4 77 5 9 21000 StateTx).GetGasFeeCap = 77 :=
  C10_non_dynamic_accessors_are_gas_price
    (Transaction.mk 4 77 5 9 21000 StateTx) (by decide)

/-! ### The repository queues (txpool/queue.go)

`accountQueue` wraps a `minNonceQueue` slice (its lock fields are
modelled separately below) and `pricedQueue` wraps a `maxPriceQueue`,
which carries the base fee fixed at construction. -/

/-- The `minNonceQueue` slice inside an `accountQueue`. -/
structure accountQueue where
  queue : List Transaction
  deriving DecidableEq, Repr

/-- `newAccountQueue`: a fresh empty slice, `heap.Init`-ed. -/
def newAccountQueue : accountQueue := ⟨heapInit mnLess []⟩

/-- `minNonceQueue.Peek`: `nil` when empty, else the root `(*q)[0]`. -/
def minNonceQueuePeek (l : List Transaction) : Option Transaction :=
  if l.length = 0 then none else some (gi l 0)

namespace accountQueue

/-- `length()`. -/
def length (q : accountQueue) : Nat := q.queue.length

/-- `push(tx)`: `heap.Push` of a transaction. -/
def push (q : accountQueue) (tx : Transaction) : accountQueue :=
  ⟨heapPush mnLess q.queue tx⟩

/-- `push` at the `interface{}` level, exercising the slice `Push`
type assertion (claim C6). -/
def pushVal (q : accountQueue) (v : GoVal Transaction) : accountQueue :=
  ⟨heapPushVal mnLess q.queue v⟩

/-- `peek()`: `nil` when empty, else the queue's `Peek`. -/
def peek (q : accountQueue) : Option Transaction :=
  if q.length = 0 then none else minNonceQueuePeek q.queue

/-- `pop()`: `nil` when empty, else `heap.Pop` (whose type assertion
always succeeds on this queue's elements). -/
def pop (q : accountQueue) : Option Transaction × accountQueue :=
  if q.length = 0 then (none, q)
  else
    let p := popTop mnLess q.queue
    (some p.1, ⟨p.2⟩)

/-- `prune(nonce)`: pop while the head exists and its nonce is below
`nonce` (the `peek() == nil` guard is the `length = 0` test, and the
head inspected is the root `(*q)[0]`). -/
def prune (q : accountQueue) (nonce : Nat) : List Transaction × accountQueue :=
  if h : q.queue.length = 0 then ([], q)
  else if nonce ≤ (gi q.queue 0).Nonce then ([], q)
  else
    let p := popTop mnLess q.queue
    let r := prune ⟨p.2⟩ nonce
    (p.1 :: r.1, r.2)
termination_by q.queue.length
decreasing_by
  simp only [popTop, List.length_take]
  omega

/-- `clear()`: return the backing slice and truncate it to `[:0]`. -/
def clear (q : accountQueue) : List Transaction × accountQueue :=
  (q.queue, ⟨[]⟩)

/-- The account queues that can exist at run time: fresh, or the
result of the exported mutating operations. -/
inductive Reachable : accountQueue → Prop where
  | new : Reachable newAccountQueue
  | push (q : accountQueue) (tx : Transaction) :
      Reachable q → Reachable (q.push tx)
  | pop (q : accountQueue) : Reachable q → Reachable (q.pop).2
  | prune (q : accountQueue) (nonce : Nat) :
      Reachable q → Reachable (q.prune nonce).2
  | clear (q : accountQueue) : Reachable q → Reachable (q.clear).2

end accountQueue

/-- The `maxPriceQueue` with its immutable base fee, wrapped by
`pricedQueue`. -/
structure pricedQueue where
  baseFee : Nat
  txs : List Transaction
  deriving DecidableEq, Repr

/-- `newPricesQueue(baseFee, initialTxs)`: store both fields, then
`heap.Init`. -/
def newPricesQueue (baseFee : Nat) (initialTxs : List Transaction) :
    pricedQueue :=
  ⟨baseFee, heapInit (mpLess baseFee) initialTxs⟩

namespace pricedQueue

/-- `length()`. -/
def length (q : pricedQueue) : Nat := q.txs.length

/-- `push(tx)`: `heap.Push` under the queue's base fee. -/
def push (q : pricedQueue) (tx : Transaction) : pricedQueue :=
  ⟨q.baseFee, heapPush (mpLess q.baseFee) q.txs tx⟩

/-- `push` at the `interface{}` level (claim C6). -/
def pushVal (q : pricedQueue) (v : GoVal Transaction) : pricedQueue :=
  ⟨q.baseFee, heapPushVal (mpLess q.baseFee) q.txs v⟩

/-- `pop()`: `nil` when empty, else `heap.Pop`. -/
def pop (q : pricedQueue) : Option Transaction × pricedQueue :=
  if q.length = 0 then (none, q)
  else
    let p := popTop (mpLess q.baseFee) q.txs
    (some p.1, ⟨q.baseFee, p.2⟩)

/-- Popping until the queue reports empty. -/
def popAll (q : pricedQueue) : List Transaction :=
  drain (mpLess q.baseFee) q.txs

end pricedQueue

/-- Pushing a batch of transactions one by one. -/
def pushMany (q : pricedQueue) (txs : List Transaction) : pricedQueue :=
  txs.foldl pricedQueue.push q

/-- `a` is yielded strictly before `b`: every occurrence of `a` in the
pop sequence comes before every occurrence of `b`. -/
def yieldsBefore (out : List Transaction) (a b : Transaction) : Prop :=
  ∀ i j, (hi : i < out.length) → (hj : j < out.length) →
    out.get ⟨i, hi⟩ = a → out.get ⟨j, hj⟩ = b → i < j


/-! ### Heap invariants of the repository queues -/

theorem mnA : ∀ a b : Transaction, mnLess a b = true → mnLess b a = false :=
  fun _ _ h => mnLess_asymm h

theorem mnT : ∀ a b c : Transaction, mnLess b a = false →
    mnLess c b = false → mnLess c a = false :=
  fun _ _ _ h1 h2 => mnLess_le_trans h1 h2

theorem mpA (F : Nat) : ∀ a b : Transaction,
    mpLess F a b = true → mpLess F b a = false :=
  fun _ _ h => mpLess_asymm h

theorem mpT (F : Nat) : ∀ a b c : Transaction, mpLess F b a = false →
    mpLess F c b = false → mpLess F c a = false :=
  fun _ _ _ h1 h2 => mpLess_le_trans h1 h2

theorem mnLess_false_nonce {a b : Transaction} (h : mnLess a b = false) :
    b.Nonce ≤ a.Nonce := by
  unfold mnLess at h
  split_ifs at h <;> simp_all <;> omega

theorem mnLess_false_shape {a b : Transaction} (h : mnLess a b = false) :
    b.Nonce < a.Nonce ∨ (b.Nonce = a.Nonce ∧ a.GasPrice ≤ b.GasPrice) := by
  unfold mnLess at h
  split_ifs at h <;> simp_all <;> omega

/-- Full specification of `prune` on a heap-ordered account queue. -/
theorem accountQueue.prune_spec (q : accountQueue) (nonce : Nat)
    (hwf : HeapWF mnLess q.queue q.queue.length) :
    (∀ t ∈ (q.prune nonce).1, t.Nonce < nonce)
    ∧ (∀ t ∈ (q.prune nonce).2.queue, nonce ≤ t.Nonce)
    ∧ List.Perm ((q.prune nonce).1 ++ (q.prune nonce).2.queue) q.queue
    ∧ List.Pairwise (fun a b => a.Nonce ≤ b.Nonce) (q.prune nonce).1
    ∧ HeapWF mnLess (q.prune nonce).2.queue (q.prune nonce).2.queue.length := by
  induction q, nonce using accountQueue.prune.induct with
  | case1 q nonce hlen =>
    have hq : q.queue = [] := List.length_eq_zero.mp hlen
    have hstep : q.prune nonce = ([], q) := by
      rw [accountQueue.prune, dif_pos hlen]
    rw [hstep]
    refine ⟨by simp, ?_, by simp, by simp, hwf⟩
    intro t ht
    rw [hq] at ht
    cases ht
  | case2 q nonce hlen hroot =>
    have hstep : q.prune nonce = ([], q) := by
      rw [accountQueue.prune, dif_neg hlen, if_pos hroot]
    rw [hstep]
    refine ⟨by simp, ?_, by simp, by simp, hwf⟩
    intro t ht
    have := mnLess_false_nonce (mem_le_root mnA mnT q.queue hwf t ht)
    omega
  | case3 q nonce hlen hroot p ih =>
    obtain ⟨q1, q2, q3, q4⟩ := popTop_spec mnA mnT q.queue hlen hwf
    have hstep : q.prune nonce =
        ((popTop mnLess q.queue).1 ::
          (accountQueue.prune ⟨(popTop mnLess q.queue).2⟩ nonce).1,
         (accountQueue.prune ⟨(popTop mnLess q.queue).2⟩ nonce).2) := by
      rw [accountQueue.prune, dif_neg hlen, if_neg hroot]
    obtain ⟨i1, i2, i3, i4, i5⟩ := ih q2
    rw [hstep]
    have hrootlt : (popTop mnLess q.queue).1.Nonce < nonce := by
      rw [q1]
      omega
    have hmemq : ∀ y, y ∈ (popTop mnLess q.queue).2 → y ∈ q.queue := by
      intro y hy
      exact q4.mem_iff.mp (List.mem_cons_of_mem _ hy)
    refine ⟨?_, i2, ?_, ?_, i5⟩
    · intro t ht
      rcases List.mem_cons.mp ht with rfl | ht'
      · exact hrootlt
      · exact i1 t ht'
    · exact (i3.cons _).trans q4
    · refine List.Pairwise.cons ?_ i4
      intro y hy
      have hy2 : y ∈ (popTop mnLess q.queue).2 := by
        have hmem : y ∈ (accountQueue.prune ⟨(popTop mnLess q.queue).2⟩ nonce).1 ++
            (accountQueue.prune ⟨(popTop mnLess q.queue).2⟩ nonce).2.queue :=
          List.mem_append.mpr (Or.inl hy)
        exact i3.mem_iff.mp hmem
      have hyq : y ∈ q.queue := hmemq y hy2
      have := mnLess_false_nonce (mem_le_root mnA mnT q.queue hwf y hyq)
      rw [q1]
      omega

/-- Every reachable account queue is heap-ordered. -/
theorem accountQueue.reachable_wf (q : accountQueue)
    (h : accountQueue.Reachable q) :
    HeapWF mnLess q.queue q.queue.length := by
  induction h with
  | new =>
    intro v hv0 hvn
    simp [newAccountQueue, heapInit, heapifyAux] at hvn
  | push q tx _ ih =>
    obtain ⟨w1, _, _⟩ := heapPush_spec mnA mnT q.queue tx ih
    exact w1
  | pop q _ ih =>
    unfold accountQueue.pop
    split
    · exact ih
    · rename_i hne
      have hne' : q.queue.length ≠ 0 := hne
      obtain ⟨_, w2, _, _⟩ := popTop_spec mnA mnT q.queue hne' ih
      exact w2
  | prune q nonce _ ih =>
    obtain ⟨_, _, _, _, w5⟩ := accountQueue.prune_spec q nonce ih
    exact w5
  | clear q _ ih =>
    intro v hv0 hvn
    simp [accountQueue.clear] at hvn

/-- Pushing a batch onto a well-formed priced queue keeps the base
fee, keeps the heap invariant, and adds exactly the batch. -/
theorem pushMany_spec_aux (F : Nat) (pushed : List Transaction) :
    ∀ (q0 : pricedQueue), q0.baseFee = F →
    HeapWF (mpLess F) q0.txs q0.txs.length →
    ((pushMany q0 pushed).baseFee = F
     ∧ HeapWF (mpLess F) (pushMany q0 pushed).txs (pushMany q0 pushed).txs.length
     ∧ List.Perm (pushMany q0 pushed).txs (q0.txs ++ pushed)) := by
  induction pushed with
  | nil =>
    intro q0 hb hwf
    exact ⟨hb, hwf, by simp [pushMany]⟩
  | cons x rest ih =>
    intro q0 hb hwf
    have hstep : pushMany q0 (x :: rest) = pushMany (q0.push x) rest := rfl
    have hbp : (q0.push x).baseFee = F := hb
    have hwfp : HeapWF (mpLess F) (q0.push x).txs (q0.push x).txs.length := by
      subst hb
      obtain ⟨w1, _, _⟩ := heapPush_spec (mpA q0.baseFee) (mpT q0.baseFee) q0.txs x hwf
      exact w1
    obtain ⟨w1, w2, w3⟩ := ih (q0.push x) hbp hwfp
    refine ⟨by rw [hstep]; exact w1, by rw [hstep]; exact w2, ?_⟩
    rw [hstep]
    refine w3.trans ?_
    have hpp : List.Perm (q0.push x).txs (q0.txs ++ [x]) := by
      subst hb
      obtain ⟨_, _, w3'⟩ := heapPush_spec (mpA q0.baseFee) (mpT q0.baseFee) q0.txs x hwf
      exact w3'
    refine (hpp.append_right rest).trans ?_
    simp

/-- The queue built by `newPricesQueue` followed by a batch of pushes:
base fee `F`, heap-ordered, holding exactly the initial and pushed
records. -/
theorem pushMany_spec (F : Nat) (initial pushed : List Transaction) :
    ((pushMany (newPricesQueue F initial) pushed).baseFee = F
     ∧ HeapWF (mpLess F) (pushMany (newPricesQueue F initial) pushed).txs
        (pushMany (newPricesQueue F initial) pushed).txs.length
     ∧ List.Perm (pushMany (newPricesQueue F initial) pushed).txs
        (initial ++ pushed)) := by
  obtain ⟨w1, w2, w3⟩ := heapInit_spec (mpA F) (mpT F) initial
  obtain ⟨u1, u2, u3⟩ := pushMany_spec_aux F pushed (newPricesQueue F initial) rfl w1
  exact ⟨u1, u2, u3.trans (w3.append_right pushed)⟩

/-- In a pop sequence sorted by the priced comparator, anything the
comparator ranks strictly higher is yielded strictly earlier. -/
theorem sorted_yieldsBefore (F : Nat) (out : List Transaction)
    (hs : List.Pairwise (fun a b => mpLess F b a = false) out)
    (a b : Transaction) (hab : mpLess F a b = true) :
    yieldsBefore out a b := by
  intro i j hi hj hia hjb
  rcases lt_trichotomy i j with h | h | h
  · exact h
  · exfalso
    subst h
    rw [hia] at hjb
    subst hjb
    rw [irrefl_of_asymm (mpA F) a] at hab
    cases hab
  · exfalso
    have := (List.pairwise_iff_get.mp hs) ⟨j, hj⟩ ⟨i, hi⟩ h
    rw [hia, hjb] at this
    rw [this] at hab
    cases hab


/-! ### Shared helpers for the ordering claims -/

/-- Anything the priced comparator ranks strictly higher is popped
strictly earlier from a queue built by construction plus pushes. -/
theorem popAll_order (F : Nat) (initial pushed : List Transaction)
    (a b : Transaction) (h : mpLess F a b = true) :
    yieldsBefore (pushMany (newPricesQueue F initial) pushed).popAll a b := by
  obtain ⟨w1, w2, _⟩ := pushMany_spec F initial pushed
  have hpa : (pushMany (newPricesQueue F initial) pushed).popAll =
      drain (mpLess F) (pushMany (newPricesQueue F initial) pushed).txs := by
    unfold pricedQueue.popAll
    rw [w1]
  obtain ⟨_, d2⟩ := drain_spec (mpA F) (mpT F) _ w2
  rw [hpa]
  exact sorted_yieldsBefore F _ d2 a b h

/-- Membership in the pop sequence of a queue built by construction
plus pushes. -/
theorem popAll_mem (F : Nat) (initial pushed : List Transaction)
    (a : Transaction) (ha : a ∈ initial ++ pushed) :
    a ∈ (pushMany (newPricesQueue F initial) pushed).popAll := by
  obtain ⟨w1, w2, w3⟩ := pushMany_spec F initial pushed
  have hpa : (pushMany (newPricesQueue F initial) pushed).popAll =
      drain (mpLess F) (pushMany (newPricesQueue F initial) pushed).txs := by
    unfold pricedQueue.popAll
    rw [w1]
  obtain ⟨d1, _⟩ := drain_spec (mpA F) (mpT F) _ w2
  rw [hpa]
  exact d1.mem_iff.mpr (w3.mem_iff.mpr ha)

/-- `up` at the last index of an already heap-ordered slice does
nothing — this is the `up` run that `heap.Push` performs after a
failed type assertion left the slice unchanged. -/
theorem up_noop {α : Type} [Inhabited α] (less : α → α → Bool)
    (l : List α) (hwf : HeapWF less l l.length) :
    up less l (l.length - 1) = l := by
  rw [up, if_neg]
  rintro ⟨h1, h2⟩
  rcases Nat.lt_or_ge l.length 2 with hsmall | hbig
  · have : l.length - 1 = 0 := by omega
    rw [this] at h1
    simp at h1
  · have h0 : 0 < l.length - 1 := by omega
    have := hwf (l.length - 1) h0 (by omega)
    have hpar : parent (l.length - 1) = (l.length - 1 - 1)/2 := rfl
    rw [hpar] at this
    rw [this] at h2
    cases h2

/-! ### The lock-mode tracking of `accountQueue` (claim C7)

`lock(write)` acquires the `RWMutex` in the requested mode and then
stores the mode in the `wLock` flag; `unlock` swaps the flag to `0`
and releases in the mode the flag held.  We model the flag as a
`Bool` state threaded through a trace of lock/unlock calls, recording
the mode of every acquisition and of every release. -/

/-- An access mode of the `sync.RWMutex`. -/
inductive LMode where
  | shared
  | exclusive
  deriving DecidableEq, Repr

/-- The mode requested by `lock(write bool)`. -/
def modeOf (write : Bool) : LMode :=
  if write then LMode.exclusive else LMode.shared

/-- A call into the lock interface of `accountQueue`. -/
inductive LockOp where
  | lock (write : Bool)
  | unlock

/-- Run a trace of lock/unlock calls against the `wLock` flag,
returning the modes acquired, the modes released, and the final flag.
`lock(write)` stores `write` in the flag; `unlock` swaps the flag to
`false` and releases exclusively iff the swapped-out flag was set. -/
def runOps : List LockOp → Bool → (List LMode × List LMode × Bool)
  | [], flag => ([], [], flag)
  | (LockOp.lock w) :: rest, _ =>
      let r := runOps rest w
      (modeOf w :: r.1, r.2.1, r.2.2)
  | LockOp.unlock :: rest, flag =>
      let r := runOps rest false
      (r.1, (if flag then LMode.exclusive else LMode.shared) :: r.2.1, r.2.2)

/-- A trace of strictly paired `lock`/`unlock` calls. -/
def pairedOps (ws : List Bool) : List LockOp :=
  ws.flatMap (fun w => [LockOp.lock w, LockOp.unlock])

/-- Counterexample to C7: the flag records only the most recent
`lock` call, so in the trace `lock(write); unlock; unlock` the second
`unlock` releases in shared mode although no shared acquisition
exists — the exclusive/shared pairing is kept only by the caller
convention that every `unlock` matches the immediately preceding
`lock`, not by construction. -/
theorem C7_counterexample :
    (runOps [LockOp.lock true, LockOp.unlock, LockOp.unlock] false).1 =
      [LMode.exclusive]
    ∧ (runOps [LockOp.lock true, LockOp.unlock, LockOp.unlock] false).2.1 =
      [LMode.exclusive, LMode.shared]
    ∧ (runOps [LockOp.lock true, LockOp.unlock, LockOp.unlock] false).2.1.count
        LMode.shared ≠
      (runOps [LockOp.lock true, LockOp.unlock, LockOp.unlock] false).1.count
        LMode.shared := by
  refine ⟨rfl, rfl, ?_⟩
  decide

/-- C7 (amended): the `wLock` flag makes every `unlock` release the
mode stored by the most recent `lock` call, so under the caller
convention that lock/unlock calls are strictly paired the released
modes match the acquired modes exactly; the matching is enforced by
that convention, not by construction (see the counterexample). -/
theorem C7_paired_lock_release_matches (ws : List Bool) (flag : Bool) :
    (runOps (pairedOps ws) flag).1 = ws.map modeOf
    ∧ (runOps (pairedOps ws) flag).2.1 = ws.map modeOf := by
  induction ws generalizing flag with
  | nil => exact ⟨rfl, rfl⟩
  | cons w rest ih =>
    have hstep : pairedOps (w :: rest) =
        LockOp.lock w :: LockOp.unlock :: pairedOps rest := rfl
    obtain ⟨h1, h2⟩ := ih false
    rw [hstep]
    cases w <;> simp [runOps, modeOf, h1, h2]

/-- Counterexample to C6: pushing a value that is not a
`*types.Transaction` through `heap.Push` leaves the queue exactly as
it was and produces no signal whatsoever — the slice `Push` method
plainly `return`s on the failed type assertion and `heap.Push`'s `up`
pass finds nothing to move, so the violation is silently dropped, not
surfaced to the caller. -/
theorem C6_counterexample :
    accountQueue.pushVal ⟨[Transaction.mk 3 5 0 0 21000 LegacyTx]⟩
        GoVal.other =
      ⟨[Transaction.mk 3 5 0 0 21000 LegacyTx]⟩
    ∧ pricedQueue.pushVal ⟨7, [Transaction.mk 3 5 0 0 21000 LegacyTx]⟩
        GoVal.other =
      ⟨7, [Transaction.mk 3 5 0 0 21000 LegacyTx]⟩ := by
  constructor <;>
    simp [accountQueue.pushVal, pricedQueue.pushVal, heapPushVal,
      slicePush, up]

/-- C6 (amended): a wrong-kind value on `push` is refused without
corrupting the queue — on any heap-ordered queue the state is left
exactly unchanged — but the violation is silently discarded (the
slice `Push` methods return nothing and the failed type assertion is
not reported), not surfaced to the caller. -/
theorem C6_wrong_kind_push_silent_noop (qa : accountQueue)
    (qp : pricedQueue)
    (ha : HeapWF mnLess qa.queue qa.queue.length)
    (hp : HeapWF (mpLess qp.baseFee) qp.txs qp.txs.length) :
    qa.pushVal GoVal.other = qa ∧ qp.pushVal GoVal.other = qp := by
  obtain ⟨la⟩ := qa
  obtain ⟨F, lp⟩ := qp
  constructor
  · show (⟨heapPushVal mnLess la GoVal.other⟩ : accountQueue) = ⟨la⟩
    have : heapPushVal mnLess la GoVal.other = la := up_noop mnLess la ha
    rw [this]
  · show (⟨F, heapPushVal (mpLess F) lp GoVal.other⟩ : pricedQueue) = ⟨F, lp⟩
    have : heapPushVal (mpLess F) lp GoVal.other = lp := up_noop (mpLess F) lp hp
    rw [this]

/-- Witness for the amended C6 at concrete one-element queues. -/
theorem C6_wrong_kind_push_silent_noop_witness :
    accountQueue.pushVal ⟨[Transaction.mk 9 4 0 0 0 LegacyTx]⟩
        GoVal.other =
      ⟨[Transaction.mk 9 4 0 0 0 LegacyTx]⟩
    ∧ pricedQueue.pushVal ⟨5, [Transaction.mk 9 4 0 0 0 LegacyTx]⟩
        GoVal.other =
      ⟨5, [Transaction.mk 9 4 0 0 0 LegacyTx]⟩ :=
  C6_wrong_kind_push_silent_noop
    ⟨[Transaction.mk 9 4 0 0 0 LegacyTx]⟩
    ⟨5, [Transaction.mk 9 4 0 0 0 LegacyTx]⟩
    (by intro v hv0 hvn; simp at hvn; omega)
    (by intro v hv0 hvn; simp at hvn; omega)


/-- Counterexample to C2 as stated: two records in a full economic
tie with equal nonces (two identical offers from different senders,
distinguishable only by their gas limit).  `pop()` yields one strictly
before the other, yet the §4.2 comparator (price tiers plus nonce
tie-break) ranks neither higher — the "iff" fails for such pairs. -/
theorem C2_counterexample :
    (pushMany (newPricesQueue 0 [])
        [Transaction.mk 1 5 0 0 100 LegacyTx,
         Transaction.mk 1 5 0 0 200 LegacyTx]).popAll =
      [Transaction.mk 1 5 0 0 100 LegacyTx,
       Transaction.mk 1 5 0 0 200 LegacyTx]
    ∧ mpLess 0 (Transaction.mk 1 5 0 0 100 LegacyTx)
        (Transaction.mk 1 5 0 0 200 LegacyTx) = false
    ∧ mpLess 0 (Transaction.mk 1 5 0 0 200 LegacyTx)
        (Transaction.mk 1 5 0 0 100 LegacyTx) = false := by
  refine ⟨?_, by decide, by decide⟩
  simp [pushMany, pricedQueue.popAll, pricedQueue.push, newPricesQueue,
    heapInit, heapifyAux, heapPush, up, down, drain, popTop, swapL, gi,
    pickChild, mpLess, cmp, bigCmp, Transaction.EffectiveGasTip,
    Transaction.GetGasTipCap, Transaction.GetGasFeeCap, BigMin,
    LegacyTx, DynamicFeeTx]

/-- C2 (amended): for records `a`, `b` held by a `PriceOrderedQueue`
built with fixed base fee `F` (from its construction batch or later
pushes), and such that the §4.2 comparator with the lower-nonce
tie-break strictly orders the pair (no full tie), `pop()` yields `a`
before `b` iff the comparator ranks `a` higher.  Fully tied pairs can
pop in either order (see the counterexample). -/
theorem C2_pop_order_iff_comparator (F : Nat)
    (initial pushed : List Transaction) (a b : Transaction)
    (ha : a ∈ initial ++ pushed) (hb : b ∈ initial ++ pushed)
    (hstrict : mpLess F a b = true ∨ mpLess F b a = true) :
    (mpLess F a b = true ↔
      yieldsBefore (pushMany (newPricesQueue F initial) pushed).popAll a b) := by
  constructor
  · intro hab
    exact popAll_order F initial pushed a b hab
  · intro hy
    by_contra hab
    have hba : mpLess F b a = true := by
      rcases hstrict with h | h
      · exact absurd h hab
      · exact h
    have hyba : yieldsBefore
        (pushMany (newPricesQueue F initial) pushed).popAll b a :=
      popAll_order F initial pushed b a hba
    obtain ⟨ia, hia⟩ :=
      List.mem_iff_get.mp (popAll_mem F initial pushed a ha)
    obtain ⟨ib, hib⟩ :=
      List.mem_iff_get.mp (popAll_mem F initial pushed b hb)
    have h1 := hy ia.1 ib.1 ia.isLt ib.isLt hia hib
    have h2 := hyba ib.1 ia.1 ib.isLt ia.isLt hib hia
    omega

/-- Witness for the amended C2 at the spec's scenario 3: base fee
100, `A{feeCap 200, tipCap 50}` and `B{feeCap 150, tipCap 80}` tie on
effective tip 50, and `A`'s larger fee cap ranks it higher, so `A`
pops first. -/
theorem C2_pop_order_iff_comparator_witness :
    (mpLess 100 (Transaction.mk 1 0 50 200 0 DynamicFeeTx)
        (Transaction.mk 2 0 80 150 0 DynamicFeeTx) = true ↔
      yieldsBefore (pushMany (newPricesQueue 100 [])
          [Transaction.mk 1 0 50 200 0 DynamicFeeTx,
           Transaction.mk 2 0 80 150 0 DynamicFeeTx]).popAll
        (Transaction.mk 1 0 50 200 0 DynamicFeeTx)
        (Transaction.mk 2 0 80 150 0 DynamicFeeTx)) :=
  C2_pop_order_iff_comparator 100 []
    [Transaction.mk 1 0 50 200 0 DynamicFeeTx,
     Transaction.mk 2 0 80 150 0 DynamicFeeTx]
    (Transaction.mk 1 0 50 200 0 DynamicFeeTx)
    (Transaction.mk 2 0 80 150 0 DynamicFeeTx)
    (by decide) (by decide) (Or.inl (by decide))

/-- C3: on every reachable `PerAccountQueue`, `prune(n)` removes
exactly the elements with nonce below `n`: everything returned has
nonce `< n`, nothing remaining has nonce `< n`, returned plus
remaining is a permutation of the original contents, and the returned
list is in ascending-nonce order. -/
theorem C3_prune_removes_below (q : accountQueue) (n : Nat)
    (h : accountQueue.Reachable q) :
    (∀ t ∈ (q.prune n).1, t.Nonce < n)
    ∧ (∀ t ∈ (q.prune n).2.queue, n ≤ t.Nonce)
    ∧ List.Perm ((q.prune n).1 ++ (q.prune n).2.queue) q.queue
    ∧ List.Pairwise (fun a b => a.Nonce ≤ b.Nonce) (q.prune n).1 := by
  obtain ⟨w1, w2, w3, w4, _⟩ :=
    accountQueue.prune_spec q n (accountQueue.reachable_wf q h)
  exact ⟨w1, w2, w3, w4⟩

/-- Witness for C3 at the spec's scenario 5: nonces 3, 7, 12, 15 and
threshold 10. -/
theorem C3_prune_removes_below_witness :
    (∀ t ∈ (((((newAccountQueue.push (Transaction.mk 3 1 0 0 0 LegacyTx)).push
        (Transaction.mk 7 1 0 0 0 LegacyTx)).push
        (Transaction.mk 12 1 0 0 0 LegacyTx)).push
        (Transaction.mk 15 1 0 0 0 LegacyTx)).prune 10).1, t.Nonce < 10)
    ∧ (∀ t ∈ (((((newAccountQueue.push (Transaction.mk 3 1 0 0 0 LegacyTx)).push
        (Transaction.mk 7 1 0 0 0 LegacyTx)).push
        (Transaction.mk 12 1 0 0 0 LegacyTx)).push
        (Transaction.mk 15 1 0 0 0 LegacyTx)).prune 10).2.queue, 10 ≤ t.Nonce)
    ∧ List.Perm ((((((newAccountQueue.push (Transaction.mk 3 1 0 0 0 LegacyTx)).push
        (Transaction.mk 7 1 0 0 0 LegacyTx)).push
        (Transaction.mk 12 1 0 0 0 LegacyTx)).push
        (Transaction.mk 15 1 0 0 0 LegacyTx)).prune 10).1 ++
        (((((newAccountQueue.push (Transaction.mk 3 1 0 0 0 LegacyTx)).push
        (Transaction.mk 7 1 0 0 0 LegacyTx)).push
        (Transaction.mk 12 1 0 0 0 LegacyTx)).push
        (Transaction.mk 15 1 0 0 0 LegacyTx)).prune 10).2.queue)
        ((((newAccountQueue.push (Transaction.mk 3 1 0 0 0 LegacyTx)).push
        (Transaction.mk 7 1 0 0 0 LegacyTx)).push
        (Transaction.mk 12 1 0 0 0 LegacyTx)).push
        (Transaction.mk 15 1 0 0 0 LegacyTx)).queue
    ∧ List.Pairwise (fun a b => a.Nonce ≤ b.Nonce)
        (((((newAccountQueue.push (Transaction.mk 3 1 0 0 0 LegacyTx)).push
        (Transaction.mk 7 1 0 0 0 LegacyTx)).push
        (Transaction.mk 12 1 0 0 0 LegacyTx)).push
        (Transaction.mk 15 1 0 0 0 LegacyTx)).prune 10).1 :=
  C3_prune_removes_below _ 10
    (accountQueue.Reachable.push _ _ (accountQueue.Reachable.push _ _
      (accountQueue.Reachable.push _ _ (accountQueue.Reachable.push _ _
        accountQueue.Reachable.new))))

/-- C4: after any sequence of operations, `peek()` on an empty queue
is `none`, and on a non-empty queue it returns the root of the
backing slice, which belongs to the queue and is minimal by nonce
ascending with ties broken by gas price descending (the higher-paying
transaction for a given nonce surfaces first). -/
theorem C4_peek_returns_minimum (q : accountQueue)
    (h : accountQueue.Reachable q) :
    (q.length = 0 → q.peek = none)
    ∧ (q.length ≠ 0 → q.peek = some (gi q.queue 0))
    ∧ (∀ t, q.peek = some t → t ∈ q.queue ∧ ∀ u ∈ q.queue,
        t.Nonce < u.Nonce ∨ (t.Nonce = u.Nonce ∧ u.GasPrice ≤ t.GasPrice)) := by
  have hwf := accountQueue.reachable_wf q h
  refine ⟨?_, ?_, ?_⟩
  · intro hlen
    unfold accountQueue.peek
    rw [if_pos hlen]
  · intro hlen
    have hlen2 : q.queue.length ≠ 0 := hlen
    unfold accountQueue.peek minNonceQueuePeek
    rw [if_neg hlen, if_neg hlen2]
  · intro t ht
    by_cases hlen : q.length = 0
    · unfold accountQueue.peek at ht
      rw [if_pos hlen] at ht
      cases ht
    · have hlen2 : q.queue.length ≠ 0 := hlen
      unfold accountQueue.peek minNonceQueuePeek at ht
      rw [if_neg hlen, if_neg hlen2] at ht
      have heq : gi q.queue 0 = t := by
        injection ht
      subst heq
      have hlen0 : 0 < q.queue.length := Nat.pos_of_ne_zero hlen2
      constructor
      · rw [gi, List.getD_eq_getElem _ _ hlen0]
        exact List.getElem_mem hlen0
      · intro u hu
        exact mnLess_false_shape (mem_le_root mnA mnT q.queue hwf u hu)

/-- Witness for C4 at the spec's scenario 2: two records share nonce
7 with gas prices 10 and 20; the higher-paying one surfaces. -/
theorem C4_peek_returns_minimum_witness :
    (((newAccountQueue.push (Transaction.mk 7 10 0 0 0 LegacyTx)).push
        (Transaction.mk 7 20 0 0 0 LegacyTx)).length = 0 →
      ((newAccountQueue.push (Transaction.mk 7 10 0 0 0 LegacyTx)).push
        (Transaction.mk 7 20 0 0 0 LegacyTx)).peek = none)
    ∧ (((newAccountQueue.push (Transaction.mk 7 10 0 0 0 LegacyTx)).push
        (Transaction.mk 7 20 0 0 0 LegacyTx)).length ≠ 0 →
      ((newAccountQueue.push (Transaction.mk 7 10 0 0 0 LegacyTx)).push
        (Transaction.mk 7 20 0 0 0 LegacyTx)).peek =
        some (gi ((newAccountQueue.push (Transaction.mk 7 10 0 0 0 LegacyTx)).push
          (Transaction.mk 7 20 0 0 0 LegacyTx)).queue 0))
    ∧ (∀ t, ((newAccountQueue.push (Transaction.mk 7 10 0 0 0 LegacyTx)).push
        (Transaction.mk 7 20 0 0 0 LegacyTx)).peek = some t →
        t ∈ ((newAccountQueue.push (Transaction.mk 7 10 0 0 0 LegacyTx)).push
          (Transaction.mk 7 20 0 0 0 LegacyTx)).queue ∧
        ∀ u ∈ ((newAccountQueue.push (Transaction.mk 7 10 0 0 0 LegacyTx)).push
          (Transaction.mk 7 20 0 0 0 LegacyTx)).queue,
          t.Nonce < u.Nonce ∨ (t.Nonce = u.Nonce ∧ u.GasPrice ≤ t.GasPrice)) :=
  C4_peek_returns_minimum _
    (accountQueue.Reachable.push _ _ (accountQueue.Reachable.push _ _
      accountQueue.Reachable.new))

/-- C5: whenever `cmp` reports a full economic tie, the record with
the lower nonce is ranked strictly higher by `maxPriceQueue.Less` and
is popped first from any priced queue holding both. -/
theorem C5_nonce_breaks_economic_tie (F : Nat)
    (initial pushed : List Transaction) (a b : Transaction)
    (hcmp : cmp a b F = 0) (hnonce : a.Nonce < b.Nonce) :
    mpLess F a b = true
    ∧ yieldsBefore (pushMany (newPricesQueue F initial) pushed).popAll a b := by
  have hless : mpLess F a b = true := by
    unfold mpLess
    rw [hcmp]
    norm_num [hnonce]
  exact ⟨hless, popAll_order F initial pushed a b hless⟩

/-- Witness for C5: two economically identical legacy records with
nonces 1 and 5 under base fee 0. -/
theorem C5_nonce_breaks_economic_tie_witness :
    mpLess 0 (Transaction.mk 1 7 0 0 0 LegacyTx)
      (Transaction.mk 5 7 0 0 0 LegacyTx) = true
    ∧ yieldsBefore (pushMany (newPricesQueue 0
        [Transaction.mk 5 7 0 0 0 LegacyTx])
        [Transaction.mk 1 7 0 0 0 LegacyTx]).popAll
      (Transaction.mk 1 7 0 0 0 LegacyTx)
      (Transaction.mk 5 7 0 0 0 LegacyTx) :=
  C5_nonce_breaks_economic_tie 0 [Transaction.mk 5 7 0 0 0 LegacyTx]
    [Transaction.mk 1 7 0 0 0 LegacyTx]
    (Transaction.mk 1 7 0 0 0 LegacyTx)
    (Transaction.mk 5 7 0 0 0 LegacyTx)
    (by decide) (by decide)

/-- C8: `peek` and `pop` on an empty queue — either kind — return an
explicit `none` and leave the queue unchanged; no failure path
exists. -/
theorem C8_empty_is_none (qa : accountQueue) (qp : pricedQueue)
    (ha : qa.length = 0) (hp : qp.length = 0) :
    qa.peek = none ∧ qa.pop = (none, qa) ∧ qp.pop = (none, qp) := by
  unfold accountQueue.peek accountQueue.pop pricedQueue.pop
  rw [if_pos ha, if_pos ha, if_pos hp]
  exact ⟨rfl, rfl, rfl⟩

/-- Witness for C8 at the freshly constructed empty queues. -/
theorem C8_empty_is_none_witness :
    newAccountQueue.peek = none
    ∧ newAccountQueue.pop = (none, newAccountQueue)
    ∧ (newPricesQueue 0 []).pop = (none, newPricesQueue 0 []) :=
  C8_empty_is_none newAccountQueue (newPricesQueue 0 []) (by decide)
    (by decide)

/-- C9: building a `PriceOrderedQueue` from a fixed base fee and a
fixed input batch and draining it is a pure function of those inputs:
equal inputs give the identical pop sequence on every run. -/
theorem C9_construction_drain_deterministic (F1 F2 : Nat)
    (txs1 txs2 : List Transaction) (hF : F1 = F2) (htxs : txs1 = txs2) :
    (newPricesQueue F1 txs1).popAll = (newPricesQueue F2 txs2).popAll := by
  rw [hF, htxs]

/-- Witness for C9 at a concrete base fee and batch. -/
theorem C9_construction_drain_deterministic_witness :
    (newPricesQueue 100 [Transaction.mk 1 3 0 0 0 LegacyTx,
        Transaction.mk 2 9 0 0 0 LegacyTx]).popAll =
    (newPricesQueue 100 [Transaction.mk 1 3 0 0 0 LegacyTx,
        Transaction.mk 2 9 0 0 0 LegacyTx]).popAll :=
  C9_construction_drain_deterministic 100 100 _ _ rfl rfl


end Etmp
